import Mathlib

/-!
Verification development for the lexer in `src/main.rs` (redyf/lexer).

The Rust lexer is shallowly embedded here.  The source buffer is modelled
as a `List Char` (Unicode scalar values); the cursor `position` is a UTF-8
byte offset exactly as in the Rust code, where `String` indexing and
slicing is byte-based.  Rust slice/arithmetic panics (out-of-bounds slice,
non-boundary slice index, `usize` underflow, `parse::<i64>().unwrap()`
failure, `panic!` on an unexpected character) are modelled by `Option`:
a `none` result of `next_token` means the Rust program aborts.

Unbounded `while` loops are modelled with an explicit fuel argument
(`runLoop`); the canonical functions apply the loop at fuel
`lexMeasure st + 1`, and fuel-stability theorems show that any fuel above
that input-length bound yields the same result, i.e. every loop terminates
within work bounded by the input length.
-/

/-- Unicode `White_Space` test on the scalar value; models Rust
`char::is_whitespace`.  The listed ranges are the complete Unicode
`White_Space` set. -/
def rustIsWhitespace (c : Char) : Bool :=
  let n := c.toNat
  (9 ≤ n && n ≤ 13) || n == 32 || n == 133 || n == 160 || n == 0x1680 ||
    (0x2000 ≤ n && n ≤ 0x200A) || n == 0x2028 || n == 0x2029 ||
    n == 0x202F || n == 0x205F || n == 0x3000

/-- Models Rust `char::is_alphabetic` (Unicode `Alphabetic`).  The table is
exact on the Basic Latin and Latin-1 Supplement blocks (U+0000..U+00FF);
scalars above U+00FF are not classified (the inputs appearing in the claims
stay within these blocks). -/
def rustIsAlphabetic (c : Char) : Bool :=
  let n := c.toNat
  (65 ≤ n && n ≤ 90) || (97 ≤ n && n ≤ 122) || n == 0xAA || n == 0xB5 ||
    n == 0xBA || (0xC0 ≤ n && n ≤ 0xD6) || (0xD8 ≤ n && n ≤ 0xF6) ||
    (0xF8 ≤ n && n ≤ 0xFF)

/-- Models Rust `char::is_numeric` (Unicode `Nd`/`Nl`/`No`), exact on
U+0000..U+00FF as above. -/
def rustIsNumeric (c : Char) : Bool :=
  let n := c.toNat
  (48 ≤ n && n ≤ 57) || n == 0xB2 || n == 0xB3 || n == 0xB9 ||
    (0xBC ≤ n && n ≤ 0xBE)

/-- Models Rust `char::is_alphanumeric`, i.e.
`is_alphabetic() || is_numeric()`. -/
def rustIsAlphanumeric (c : Char) : Bool :=
  rustIsAlphabetic c || rustIsNumeric c

/-- Models the Rust pattern `'0'..='9'` and `ch.is_digit(10)`. -/
def isAsciiDigit (c : Char) : Bool :=
  48 ≤ c.toNat && c.toNat ≤ 57

/-- UTF-8 byte length of a character list; models Rust `str::len`. -/
def utf8Len (l : List Char) : Nat :=
  (l.map Char.utf8Size).sum

/-- The character whose UTF-8 encoding starts at byte offset `p`, or `none`
if `p` is past the end or not a character boundary.  Models
`&s[p..].chars().next()`. -/
def charAt : List Char → Nat → Option Char
  | [], _ => none
  | c :: cs, p =>
    if p = 0 then some c
    else if c.utf8Size ≤ p then charAt cs (p - c.utf8Size) else none

/-- Characters of the first `n` bytes; `none` if `n` is not a character
boundary or exceeds the byte length (a Rust string-slice panic). -/
def byteTake : List Char → Nat → Option (List Char)
  | _, 0 => some []
  | [], _ + 1 => none
  | c :: cs, p + 1 =>
    if c.utf8Size ≤ p + 1 then (byteTake cs (p + 1 - c.utf8Size)).map (c :: ·)
    else none

/-- Characters after the first `n` bytes; `none` if `n` is not a character
boundary or exceeds the byte length. -/
def byteDrop : List Char → Nat → Option (List Char)
  | l, 0 => some l
  | [], _ + 1 => none
  | c :: cs, p + 1 =>
    if c.utf8Size ≤ p + 1 then byteDrop cs (p + 1 - c.utf8Size) else none

/-- Models the Rust string slice `&s[a..b]`: defined only when
`a ≤ b ≤ s.len()` and both offsets are character boundaries; otherwise
the Rust program panics (`none`). -/
def byteSlice (l : List Char) (a b : Nat) : Option (List Char) :=
  if a ≤ b then (byteDrop l a).bind (fun r => byteTake r (b - a)) else none

/-- Subtraction on `usize`: Rust panics on underflow, so the result is
`none` when `b > a`. -/
def usizeSub (a b : Nat) : Option Nat :=
  if b ≤ a then some (a - b) else none

/-- Models `str::parse::<i64>`: an optional sign, then one or more ASCII
decimal digits, value within the `i64` range; `none` otherwise. -/
def parseI64 (s : List Char) : Option Int :=
  let p : Int × List Char :=
    match s with
    | '+' :: r => (1, r)
    | '-' :: r => (-1, r)
    | r => (1, r)
  if p.2.isEmpty || !(p.2.all isAsciiDigit) then none
  else
    let v : Int := p.1 * p.2.foldl (fun a c => a * 10 + ((c.toNat : Int) - 48)) 0
    if -(2 ^ 63) ≤ v ∧ v ≤ 2 ^ 63 - 1 then some v else none

/-- The token type of the lexer, mirroring `enum Token` in `src/main.rs`.
`Identifier` and `String` carry the character list of the Rust `String`
payload; `Number` carries the `i64` value as an `Int` (range-checked at
parse time). -/
inductive Token where
  | Identifier : List Char → Token
  | Number : Int → Token
  | String : List Char → Token
  | LessThan | BiggerThan | Dot | Plus | Minus | Multiply | Slash
  | BackwardSlash | Pipe | Equal | Colon | Semicolon | Comma | Percent
  | SingleQuotationMark | Ampersand | Exclamation | LeftBracket
  | RightBracket | LeftBrace | RightBrace | LeftParen | RightParen
  | Circumflex | QuestionMark | DollarSign | EOF
  | Auto | Const | Default | Extern | Goto | Register | Signed | Sizeof
  | Static | Union | Unsigned | Volatile | If | Else | Return | Do
  | While | For | Switch | Case | Break | Continue | Enum | Struct
  | Typedef | Int | Long | Short | Char | Float | Double | Void

/-- The symbol table, mirroring `struct SymbolTable { symbols: HashMap<String, Token> }`.
The hash map is modelled as an association list with unique keys; only
key-presence and key-value association are observed by the lexer. -/
structure SymbolTable where
  symbols : List (List Char × Token)

/-- Models `SymbolTable::add`, i.e. `self.symbols.entry(identifier).or_insert(token)`:
insert only if the key is absent. -/
def SymbolTable.add (tbl : SymbolTable) (identifier : List Char) (token : Token) :
    SymbolTable :=
  if tbl.symbols.any (fun p => p.1 = identifier) then tbl
  else ⟨tbl.symbols ++ [(identifier, token)]⟩

/-- The lexer state, mirroring `struct Lexer`: the source buffer, the UTF-8
byte offset `position`, the buffered `current_char`, the line counter and
the symbol table. -/
structure Lexer where
  input : List Char
  position : Nat
  current_char : Option Char
  line_number : Nat
  symbol_table : SymbolTable

/-- Models `Lexer::next_char`: if `position` is within the buffer, read the
character starting at byte `position`, advance `position` by its UTF-8
width (`ch.len_utf8()`), buffer and return it; otherwise set
`current_char` to `None`.  The middle branch (in-bounds `position` that is
not a character boundary) is unreachable from states produced by this
development, because `position` only ever advances by whole character
widths; it is mapped to the end-of-input behaviour. -/
def nextChar (st : Lexer) : Lexer × Option Char :=
  if st.position < utf8Len st.input then
    match charAt st.input st.position with
    | some c =>
      ({ st with position := st.position + c.utf8Size, current_char := some c },
        some c)
    | none => ({ st with current_char := none }, none)
  else
    ({ st with current_char := none }, none)

/-- Models `Lexer::seek_offset`:
`self.input.chars().nth(self.position + offset - 1)`.  Note the mixed
units: `position` is a byte offset but `Iterator::nth` counts characters.
(The `usize` subtraction cannot underflow at the call sites, which all
pass `offset = 1`.) -/
def seekOffset (st : Lexer) (offset : Nat) : Option Char :=
  st.input.get? (st.position + offset - 1)

/-- Models `Lexer::new`: zeroed state with line number 1, then one
`next_char()` call to buffer the first character. -/
def Lexer.new (input : List Char) : Lexer :=
  (nextChar { input := input, position := 0, current_char := none,
              line_number := 1, symbol_table := ⟨[]⟩ }).1

/-- Loop fuel measure: twice the number of unread bytes plus one if a
character is buffered.  Every loop iteration of the lexer strictly
decreases it, and it is bounded by `2 * utf8Len input + 1`. -/
def lexMeasure (st : Lexer) : Nat :=
  2 * (utf8Len st.input - st.position) + (if st.current_char.isSome then 1 else 0)

/-- One fueled `while` loop: the body either stops with a final state
(`Sum.inl`) or continues with the next state (`Sum.inr`).  Fuel 0 returns
the current state; all uses apply enough fuel for the loop to finish. -/
def runLoop (f : Lexer → Lexer ⊕ Lexer) : Nat → Lexer → Lexer
  | 0, st => st
  | n + 1, st =>
    match f st with
    | Sum.inl stop => stop
    | Sum.inr go => runLoop f n go

/-- A loop run at the canonical (always sufficient) fuel. -/
def loopRun (f : Lexer → Lexer ⊕ Lexer) (st : Lexer) : Lexer :=
  runLoop f (lexMeasure st + 1) st

/-- Loop body of `Lexer::skip_line`: while a character is buffered,
consume it; stop (after consuming) once the consumed character was a
newline. -/
def skipLineBody (st : Lexer) : Lexer ⊕ Lexer :=
  match st.current_char with
  | none => Sum.inl st
  | some ch =>
    let st' := (nextChar st).1
    if ch = '\n' then Sum.inl st' else Sum.inr st'

/-- Models `Lexer::skip_line`. -/
def skipLine (st : Lexer) : Lexer :=
  loopRun skipLineBody st

/-- Loop body of the `while let Some(ch) = self.next_char()` loop of
`Lexer::skip_multiline_comment`: read the next character; on `'*'`
followed (per `seek_offset(1)`) by `'/'`, consume two more characters and
stop. -/
def skipMultilineBody (st : Lexer) : Lexer ⊕ Lexer :=
  match nextChar st with
  | (st', none) => Sum.inl st'
  | (st', some ch) =>
    if ch = '*' then
      if seekOffset st' 1 = some '/' then Sum.inl (nextChar (nextChar st').1).1
      else Sum.inr st'
    else Sum.inr st'

/-- Models `Lexer::skip_multiline_comment`: one `next_char()` call, then
the loop. -/
def skipMultilineComment (st : Lexer) : Lexer :=
  loopRun skipMultilineBody (nextChar st).1

/-- Loop body of `Lexer::skip_whitespace`: while the buffered character is
whitespace, increment the line counter on `'\n'` and consume it. -/
def skipWhitespaceBody (st : Lexer) : Lexer ⊕ Lexer :=
  match st.current_char with
  | none => Sum.inl st
  | some ch =>
    if rustIsWhitespace ch then
      let st' := if ch = '\n' then { st with line_number := st.line_number + 1 } else st
      Sum.inr (nextChar st').1
    else Sum.inl st

/-- Models `Lexer::skip_whitespace`. -/
def skipWhitespace (st : Lexer) : Lexer :=
  loopRun skipWhitespaceBody st

/-- Loop body of the digit loop in `Lexer::integer`. -/
def digitBody (st : Lexer) : Lexer ⊕ Lexer :=
  match st.current_char with
  | none => Sum.inl st
  | some ch => if isAsciiDigit ch then Sum.inr (nextChar st).1 else Sum.inl st

/-- Models `Lexer::integer`: remember `start_pos = position - 1`, consume
the run of ASCII digits, slice `input[start_pos..position - 1]` and parse
it as an `i64` (`unwrap` panics on failure — `none`). -/
def integerFn (st : Lexer) : Option (Lexer × Int) :=
  match usizeSub st.position 1 with
  | none => none
  | some start =>
    let st' := loopRun digitBody st
    match usizeSub st'.position 1 with
    | none => none
    | some endPos =>
      match byteSlice st'.input start endPos with
      | none => none
      | some s => (parseI64 s).map (fun v => (st', v))

/-- Loop body of the identifier loop in `Lexer::identifier`
(`ch.is_alphanumeric() || ch == '_'`). -/
def identBody (st : Lexer) : Lexer ⊕ Lexer :=
  match st.current_char with
  | none => Sum.inl st
  | some ch =>
    if rustIsAlphanumeric ch || ch == '_' then Sum.inr (nextChar st).1
    else Sum.inl st

/-- Models `Lexer::identifier`: remember `start_pos = position - 1`,
consume the alphanumeric/underscore run, return the slice
`input[start_pos..position - 1]`. -/
def identifierFn (st : Lexer) : Option (Lexer × List Char) :=
  match usizeSub st.position 1 with
  | none => none
  | some start =>
    let st' := loopRun identBody st
    match usizeSub st'.position 1 with
    | none => none
    | some endPos =>
      match byteSlice st'.input start endPos with
      | none => none
      | some s => some (st', s)

/-- Loop body of the string loop in `Lexer::read_string`: consume the
buffered character; stop right after consuming a `'"'`; after a `'\\'`
consume one extra character. -/
def stringBody (st : Lexer) : Lexer ⊕ Lexer :=
  match st.current_char with
  | none => Sum.inl st
  | some ch =>
    let st1 := (nextChar st).1
    if ch = '"' then Sum.inl st1
    else if ch = '\\' then Sum.inr (nextChar st1).1
    else Sum.inr st1

/-- The string loop of `Lexer::read_string` at canonical fuel. -/
def stringLoop (st : Lexer) : Lexer :=
  loopRun stringBody st

/-- Models `Lexer::read_string`: one `next_char()` call, remember
`start_pos = position - 1`, run the loop, then slice
`input[start_pos..position - 2]` (both `usize` subtractions and the slice
can panic — `none`). -/
def readString (st : Lexer) : Option (Lexer × List Char) :=
  let st0 := (nextChar st).1
  match usizeSub st0.position 1 with
  | none => none
  | some start =>
    let st1 := stringLoop st0
    match usizeSub st1.position 2 with
    | none => none
    | some endPos =>
      match byteSlice st1.input start endPos with
      | none => none
      | some s => some (st1, s)

/-- Models `Lexer::keyword`: the fixed keyword table of `src/main.rs`. -/
def keywordFn (w : List Char) : Option Token :=
  if w = "auto".data then some Token.Auto
  else if w = "const".data then some Token.Const
  else if w = "default".data then some Token.Default
  else if w = "extern".data then some Token.Extern
  else if w = "goto".data then some Token.Goto
  else if w = "register".data then some Token.Register
  else if w = "signed".data then some Token.Signed
  else if w = "sizeof".data then some Token.Sizeof
  else if w = "static".data then some Token.Static
  else if w = "union".data then some Token.Union
  else if w = "unsigned".data then some Token.Unsigned
  else if w = "volatile".data then some Token.Volatile
  else if w = "if".data then some Token.If
  else if w = "else".data then some Token.Else
  else if w = "return".data then some Token.Return
  else if w = "do".data then some Token.Do
  else if w = "while".data then some Token.While
  else if w = "for".data then some Token.For
  else if w = "switch".data then some Token.Switch
  else if w = "case".data then some Token.Case
  else if w = "break".data then some Token.Break
  else if w = "continue".data then some Token.Continue
  else if w = "enum".data then some Token.Enum
  else if w = "struct".data then some Token.Struct
  else if w = "typedef".data then some Token.Typedef
  else if w = "int".data then some Token.Int
  else if w = "long".data then some Token.Long
  else if w = "short".data then some Token.Short
  else if w = "char".data then some Token.Char
  else if w = "float".data then some Token.Float
  else if w = "double".data then some Token.Double
  else if w = "void".data then some Token.Void
  else none

/-- The single-character operator/punctuation arms of the `match` in
`Lexer::next_token` (every arm of the source `match` that just calls
`next_char()` and returns a fixed token).  `'#'`, `'/'` and `'"'` are
handled separately in `nextTokenF`, exactly as their source arms do more
than emit a token. -/
def singleCharToken (ch : Char) : Option Token :=
  if ch = '<' then some Token.LessThan
  else if ch = '>' then some Token.BiggerThan
  else if ch = '.' then some Token.Dot
  else if ch = '+' then some Token.Plus
  else if ch = '-' then some Token.Minus
  else if ch = '=' then some Token.Equal
  else if ch = '*' then some Token.Multiply
  else if ch = '\\' then some Token.BackwardSlash
  else if ch = '|' then some Token.Pipe
  else if ch = ':' then some Token.Colon
  else if ch = ';' then some Token.Semicolon
  else if ch = ',' then some Token.Comma
  else if ch = '%' then some Token.Percent
  else if ch = '\'' then some Token.SingleQuotationMark
  else if ch = '&' then some Token.Ampersand
  else if ch = '!' then some Token.Exclamation
  else if ch = '[' then some Token.LeftBracket
  else if ch = ']' then some Token.RightBracket
  else if ch = '{' then some Token.LeftBrace
  else if ch = '}' then some Token.RightBrace
  else if ch = '(' then some Token.LeftParen
  else if ch = ')' then some Token.RightParen
  else if ch = '^' then some Token.Circumflex
  else if ch = '?' then some Token.QuestionMark
  else if ch = '$' then some Token.DollarSign
  else none

/-- Fueled model of `Lexer::next_token`.  The fuel counts re-entries of the
outer `while let Some(ch) = self.current_char` loop (each re-entry follows
a skipped span, which always consumes input).  The `match` arms are kept in
source order; the mutually disjoint single-character arms are factored
through `singleCharToken`.  A result of `none` models a Rust panic (the
`parse().unwrap()` in `integer`, a string-slice panic in `read_string`, or
the `panic!("Unexpected character")` arm). -/
def nextTokenF : Nat → Lexer → Option (Lexer × Token)
  | 0, st => some (st, Token.EOF)
  | n + 1, st =>
    match st.current_char with
    | none => some (st, Token.EOF)
    | some ch =>
      if isAsciiDigit ch then
        (integerFn st).map (fun p => (p.1, Token.Number p.2))
      else if ch = '#' then
        nextTokenF n (skipLine st)
      else if ch = '/' then
        if seekOffset st 1 = some '/' then nextTokenF n (skipLine st)
        else if seekOffset st 1 = some '*' then
          nextTokenF n (skipMultilineComment st)
        else some ((nextChar st).1, Token.Slash)
      else if ch = '"' then
        (readString st).map (fun p => (p.1, Token.String p.2))
      else
        match singleCharToken ch with
        | some tok => some ((nextChar st).1, tok)
        | none =>
          if rustIsWhitespace ch then
            nextTokenF n (skipWhitespace st)
          else if rustIsAlphabetic ch || ch == '_' then
            match identifierFn st with
            | none => none
            | some (st2, word) =>
              match keywordFn word with
              | some k => some (st2, k)
              | none =>
                some ({ st2 with
                          symbol_table :=
                            st2.symbol_table.add word (Token.Identifier word) },
                      Token.Identifier word)
          else none

/-- Models `Lexer::next_token` at canonical (always sufficient) fuel. -/
def nextToken (st : Lexer) : Option (Lexer × Token) :=
  nextTokenF (lexMeasure st + 1) st

/-- The first `n` tokens of the stream produced by repeated
`next_token()` calls (`none` if any call panics). -/
def tokensFrom : Nat → Lexer → Option (List Token)
  | 0, _ => some []
  | n + 1, st =>
    match nextToken st with
    | none => none
    | some (st', t) => (tokensFrom n st').map (t :: ·)

/-- Well-formed string-literal content between the two quotes: a mix of
plain single-byte characters (neither `'"'` nor `'\\'`) and escape pairs
(`'\\'` followed by one single-byte character). -/
inductive ContentOk : List Char → Prop
  | nil : ContentOk []
  | plain (c : Char) (t : List Char) :
      c ≠ '"' → c ≠ '\\' → c.utf8Size = 1 → ContentOk t → ContentOk (c :: t)
  | esc (d : Char) (t : List Char) :
      d.utf8Size = 1 → ContentOk t → ContentOk ('\\' :: d :: t)

/-! ### Basic lemmas about the cursor -/

theorem nextChar_input (st : Lexer) : ((nextChar st).1).input = st.input := by
  unfold nextChar
  split
  · split <;> rfl
  · rfl

theorem nextChar_line (st : Lexer) :
    ((nextChar st).1).line_number = st.line_number := by
  unfold nextChar
  split
  · split <;> rfl
  · rfl

theorem nextChar_table (st : Lexer) :
    ((nextChar st).1).symbol_table = st.symbol_table := by
  unfold nextChar
  split
  · split <;> rfl
  · rfl

theorem nextChar_snd_eq (st : Lexer) :
    (nextChar st).2 = ((nextChar st).1).current_char := by
  unfold nextChar
  split
  · split <;> rfl
  · rfl

theorem nextChar_measure_le (st : Lexer) :
    lexMeasure (nextChar st).1 ≤ lexMeasure st := by
  unfold nextChar lexMeasure
  split
  · rename_i h
    split
    · rename_i c hc
      have hs := Char.utf8Size_pos c
      simp only
      cases st.current_char <;> simp <;> omega
    · simp only
      cases st.current_char <;> simp
  · simp only
    cases st.current_char <;> simp

theorem nextChar_measure_lt_of_isSome (st : Lexer)
    (h : st.current_char.isSome = true) :
    lexMeasure (nextChar st).1 < lexMeasure st := by
  unfold nextChar lexMeasure
  split
  · rename_i hp
    split
    · rename_i c hc
      have hs := Char.utf8Size_pos c
      simp only
      cases st.current_char <;> simp_all <;> omega
    · simp only
      cases st.current_char <;> simp_all
  · rename_i hp
    simp only
    cases st.current_char <;> simp_all

theorem nextChar_measure_lt_of_snd_some (st : Lexer) (c : Char)
    (h : (nextChar st).2 = some c) :
    lexMeasure (nextChar st).1 < lexMeasure st := by
  unfold nextChar at h
  by_cases hp : st.position < utf8Len st.input
  · rw [if_pos hp] at h
    cases hc : charAt st.input st.position with
    | none => rw [hc] at h; simp at h
    | some c' =>
      unfold nextChar
      rw [if_pos hp, hc]
      unfold lexMeasure
      have hs := Char.utf8Size_pos c'
      cases st.current_char <;> simp <;> omega
  · rw [if_neg hp] at h; simp at h

/-! ### Generic lemmas about fueled loops -/

theorem runLoop_stable (f : Lexer → Lexer ⊕ Lexer)
    (Hdec : ∀ st go, f st = Sum.inr go → lexMeasure go < lexMeasure st) :
    ∀ n m st, lexMeasure st < n → lexMeasure st < m →
      runLoop f n st = runLoop f m st := by
  intro n
  induction n with
  | zero => intro m st h _; exact absurd h (Nat.not_lt_zero _)
  | succ k ih =>
    intro m st hn hm
    cases m with
    | zero => exact absurd hm (Nat.not_lt_zero _)
    | succ j =>
      simp only [runLoop]
      cases hf : f st with
      | inl stop => rfl
      | inr go =>
        have hlt := Hdec st go hf
        exact ih j go (by omega) (by omega)

theorem runLoop_measure_le (f : Lexer → Lexer ⊕ Lexer)
    (Hle : ∀ st stop, f st = Sum.inl stop → lexMeasure stop ≤ lexMeasure st)
    (Hdec : ∀ st go, f st = Sum.inr go → lexMeasure go < lexMeasure st) :
    ∀ n st, lexMeasure (runLoop f n st) ≤ lexMeasure st := by
  intro n
  induction n with
  | zero => intro st; simp [runLoop]
  | succ k ih =>
    intro st
    simp only [runLoop]
    cases hf : f st with
    | inl stop => exact Hle st stop hf
    | inr go => exact le_trans (ih go) (le_of_lt (Hdec st go hf))

theorem runLoop_preserve {α : Type} (g : Lexer → α) (f : Lexer → Lexer ⊕ Lexer)
    (H1 : ∀ st stop, f st = Sum.inl stop → g stop = g st)
    (H2 : ∀ st go, f st = Sum.inr go → g go = g st) :
    ∀ n st, g (runLoop f n st) = g st := by
  intro n
  induction n with
  | zero => intro st; simp [runLoop]
  | succ k ih =>
    intro st
    simp only [runLoop]
    cases hf : f st with
    | inl stop => exact H1 st stop hf
    | inr go => exact (ih go).trans (H2 st go hf)

theorem loopRun_inl (f : Lexer → Lexer ⊕ Lexer) (st stop : Lexer)
    (h : f st = Sum.inl stop) : loopRun f st = stop := by
  simp only [loopRun, runLoop, h]

theorem loopRun_inr (f : Lexer → Lexer ⊕ Lexer)
    (Hdec : ∀ st go, f st = Sum.inr go → lexMeasure go < lexMeasure st)
    (st go : Lexer) (h : f st = Sum.inr go) : loopRun f st = loopRun f go := by
  have hlt := Hdec st go h
  simp only [loopRun, runLoop, h]
  exact runLoop_stable f Hdec _ _ go hlt (Nat.lt_succ_self _)

theorem loopRun_measure_le (f : Lexer → Lexer ⊕ Lexer)
    (Hle : ∀ st stop, f st = Sum.inl stop → lexMeasure stop ≤ lexMeasure st)
    (Hdec : ∀ st go, f st = Sum.inr go → lexMeasure go < lexMeasure st)
    (st : Lexer) : lexMeasure (loopRun f st) ≤ lexMeasure st :=
  runLoop_measure_le f Hle Hdec _ st

/-! ### Loop body facts: measure decrease on continue, no increase on stop -/

theorem skipLineBody_dec (st go : Lexer) (h : skipLineBody st = Sum.inr go) :
    lexMeasure go < lexMeasure st := by
  unfold skipLineBody at h
  cases hcc : st.current_char with
  | none => rw [hcc] at h; simp at h
  | some ch =>
    rw [hcc] at h
    by_cases hn : ch = '\n'
    · simp [hn] at h
    · simp only [if_neg hn] at h
      cases h
      exact nextChar_measure_lt_of_isSome st (by rw [hcc]; rfl)

theorem skipLineBody_le (st stop : Lexer) (h : skipLineBody st = Sum.inl stop) :
    lexMeasure stop ≤ lexMeasure st := by
  unfold skipLineBody at h
  cases hcc : st.current_char with
  | none => rw [hcc] at h; cases h; exact le_refl _
  | some ch =>
    rw [hcc] at h
    by_cases hn : ch = '\n'
    · simp only [if_pos hn] at h
      cases h
      exact nextChar_measure_le st
    · simp [hn] at h

theorem skipWhitespaceBody_dec (st go : Lexer)
    (h : skipWhitespaceBody st = Sum.inr go) : lexMeasure go < lexMeasure st := by
  unfold skipWhitespaceBody at h
  cases hcc : st.current_char with
  | none => rw [hcc] at h; simp at h
  | some ch =>
    rw [hcc] at h
    by_cases hw : rustIsWhitespace ch
    · simp only [if_pos hw] at h
      cases h
      by_cases hn : ch = '\n'
      · simp only [if_pos hn]
        have : lexMeasure { st with line_number := st.line_number + 1 } =
            lexMeasure st := rfl
        calc lexMeasure (nextChar { st with line_number := st.line_number + 1 }).1
            < lexMeasure { st with line_number := st.line_number + 1 } :=
              nextChar_measure_lt_of_isSome _ (by rw [show ({ st with line_number := st.line_number + 1 } : Lexer).current_char = st.current_char from rfl, hcc]; rfl)
          _ = lexMeasure st := this
      · simp only [if_neg hn]
        exact nextChar_measure_lt_of_isSome st (by rw [hcc]; rfl)
    · simp [hw] at h

theorem skipWhitespaceBody_le (st stop : Lexer)
    (h : skipWhitespaceBody st = Sum.inl stop) : lexMeasure stop ≤ lexMeasure st := by
  unfold skipWhitespaceBody at h
  cases hcc : st.current_char with
  | none => rw [hcc] at h; cases h; exact le_refl _
  | some ch =>
    rw [hcc] at h
    by_cases hw : rustIsWhitespace ch
    · simp [hw] at h
    · simp only [if_neg hw] at h; cases h; exact le_refl _

theorem skipMultilineBody_dec (st go : Lexer)
    (h : skipMultilineBody st = Sum.inr go) : lexMeasure go < lexMeasure st := by
  unfold skipMultilineBody at h
  cases hnc : nextChar st with
  | mk st' oc =>
    rw [hnc] at h
    cases oc with
    | none => simp at h
    | some ch =>
      have hlt : lexMeasure st' < lexMeasure st := by
        have := nextChar_measure_lt_of_snd_some st ch (by rw [hnc])
        rwa [hnc] at this
      by_cases hs : ch = '*'
      · simp only [if_pos hs] at h
        by_cases hq : seekOffset st' 1 = some '/'
        · simp [hq] at h
        · simp only [if_neg hq] at h; cases h; exact hlt
      · simp only [if_neg hs] at h; cases h; exact hlt

theorem skipMultilineBody_le (st stop : Lexer)
    (h : skipMultilineBody st = Sum.inl stop) : lexMeasure stop ≤ lexMeasure st := by
  unfold skipMultilineBody at h
  cases hnc : nextChar st with
  | mk st' oc =>
    rw [hnc] at h
    have hle : lexMeasure st' ≤ lexMeasure st := by
      have := nextChar_measure_le st
      rwa [hnc] at this
    cases oc with
    | none => cases h; exact hle
    | some ch =>
      by_cases hs : ch = '*'
      · simp only [if_pos hs] at h
        by_cases hq : seekOffset st' 1 = some '/'
        · simp only [if_pos hq] at h
          cases h
          exact le_trans (le_trans (nextChar_measure_le _) (nextChar_measure_le _)) hle
        · simp [hq] at h
      · simp [hs] at h

theorem digitBody_dec (st go : Lexer) (h : digitBody st = Sum.inr go) :
    lexMeasure go < lexMeasure st := by
  unfold digitBody at h
  cases hcc : st.current_char with
  | none => rw [hcc] at h; simp at h
  | some ch =>
    rw [hcc] at h
    by_cases hd : isAsciiDigit ch
    · simp only [if_pos hd] at h
      cases h
      exact nextChar_measure_lt_of_isSome st (by rw [hcc]; rfl)
    · simp [hd] at h

theorem digitBody_le (st stop : Lexer) (h : digitBody st = Sum.inl stop) :
    lexMeasure stop ≤ lexMeasure st := by
  unfold digitBody at h
  cases hcc : st.current_char with
  | none => rw [hcc] at h; cases h; exact le_refl _
  | some ch =>
    rw [hcc] at h
    by_cases hd : isAsciiDigit ch
    · simp [hd] at h
    · simp only [if_neg hd] at h; cases h; exact le_refl _

theorem identBody_dec (st go : Lexer) (h : identBody st = Sum.inr go) :
    lexMeasure go < lexMeasure st := by
  unfold identBody at h
  cases hcc : st.current_char with
  | none => rw [hcc] at h; simp at h
  | some ch =>
    rw [hcc] at h
    by_cases hd : (rustIsAlphanumeric ch || ch == '_') = true
    · simp only [if_pos hd] at h
      cases h
      exact nextChar_measure_lt_of_isSome st (by rw [hcc]; rfl)
    · simp [hd] at h

theorem identBody_le (st stop : Lexer) (h : identBody st = Sum.inl stop) :
    lexMeasure stop ≤ lexMeasure st := by
  unfold identBody at h
  cases hcc : st.current_char with
  | none => rw [hcc] at h; cases h; exact le_refl _
  | some ch =>
    rw [hcc] at h
    by_cases hd : (rustIsAlphanumeric ch || ch == '_') = true
    · simp [hd] at h
    · simp only [if_neg hd] at h; cases h; exact le_refl _

theorem stringBody_dec (st go : Lexer) (h : stringBody st = Sum.inr go) :
    lexMeasure go < lexMeasure st := by
  unfold stringBody at h
  cases hcc : st.current_char with
  | none => rw [hcc] at h; simp at h
  | some ch =>
    rw [hcc] at h
    have hlt : lexMeasure (nextChar st).1 < lexMeasure st :=
      nextChar_measure_lt_of_isSome st (by rw [hcc]; rfl)
    by_cases hq : ch = '"'
    · simp [hq] at h
    · by_cases he : ch = '\\'
      · simp only [if_neg hq, if_pos he] at h
        cases h
        exact lt_of_le_of_lt (nextChar_measure_le _) hlt
      · simp only [if_neg hq, if_neg he] at h
        cases h
        exact hlt

theorem stringBody_le (st stop : Lexer) (h : stringBody st = Sum.inl stop) :
    lexMeasure stop ≤ lexMeasure st := by
  unfold stringBody at h
  cases hcc : st.current_char with
  | none => rw [hcc] at h; cases h; exact le_refl _
  | some ch =>
    rw [hcc] at h
    by_cases hq : ch = '"'
    · simp only [if_pos hq] at h
      cases h
      exact nextChar_measure_le st
    · by_cases he : ch = '\\'
      · simp [hq, he] at h
      · simp [hq, he] at h

/-! ### Canonical step equations for the loops -/

theorem skipLine_none (st : Lexer) (h : st.current_char = none) :
    skipLine st = st :=
  loopRun_inl _ st st (by unfold skipLineBody; rw [h])

theorem skipLine_newline (st : Lexer) (h : st.current_char = some '\n') :
    skipLine st = (nextChar st).1 :=
  loopRun_inl _ st _ (by unfold skipLineBody; rw [h]; simp)

theorem skipLine_step (st : Lexer) (ch : Char) (h : st.current_char = some ch)
    (hn : ch ≠ '\n') : skipLine st = skipLine (nextChar st).1 :=
  loopRun_inr _ skipLineBody_dec st _
    (by unfold skipLineBody; rw [h]; simp [hn])

theorem skipWhitespace_none (st : Lexer) (h : st.current_char = none) :
    skipWhitespace st = st :=
  loopRun_inl _ st st (by unfold skipWhitespaceBody; rw [h])

theorem skipWhitespace_stop (st : Lexer) (ch : Char)
    (h : st.current_char = some ch) (hw : rustIsWhitespace ch = false) :
    skipWhitespace st = st :=
  loopRun_inl _ st st (by unfold skipWhitespaceBody; rw [h]; simp [hw])

theorem skipWhitespace_newline (st : Lexer) (h : st.current_char = some '\n') :
    skipWhitespace st =
      skipWhitespace (nextChar { st with line_number := st.line_number + 1 }).1 :=
  loopRun_inr _ skipWhitespaceBody_dec st _
    (by unfold skipWhitespaceBody; rw [h]; simp; decide)

theorem skipWhitespace_other (st : Lexer) (ch : Char)
    (h : st.current_char = some ch) (hw : rustIsWhitespace ch = true)
    (hn : ch ≠ '\n') :
    skipWhitespace st = skipWhitespace (nextChar st).1 :=
  loopRun_inr _ skipWhitespaceBody_dec st _
    (by unfold skipWhitespaceBody; rw [h]; simp [hw, hn])

theorem stringLoop_none (st : Lexer) (h : st.current_char = none) :
    stringLoop st = st :=
  loopRun_inl _ st st (by unfold stringBody; rw [h])

theorem stringLoop_quote (st : Lexer) (h : st.current_char = some '"') :
    stringLoop st = (nextChar st).1 :=
  loopRun_inl _ st _ (by unfold stringBody; rw [h]; simp)

theorem stringLoop_esc (st : Lexer) (h : st.current_char = some '\\') :
    stringLoop st = stringLoop (nextChar (nextChar st).1).1 :=
  loopRun_inr _ stringBody_dec st _
    (by unfold stringBody; rw [h]; simp)

theorem stringLoop_plain (st : Lexer) (ch : Char)
    (h : st.current_char = some ch) (hq : ch ≠ '"') (he : ch ≠ '\\') :
    stringLoop st = stringLoop (nextChar st).1 :=
  loopRun_inr _ stringBody_dec st _
    (by unfold stringBody; rw [h]; simp [hq, he])

/-! ### Preservation of line number and symbol table by the skipping loops -/

theorem skipLine_line (st : Lexer) : (skipLine st).line_number = st.line_number := by
  unfold skipLine loopRun
  refine runLoop_preserve Lexer.line_number skipLineBody ?_ ?_ _ st
  · intro s stop h
    unfold skipLineBody at h
    cases hcc : s.current_char with
    | none => rw [hcc] at h; cases h; rfl
    | some ch =>
      rw [hcc] at h
      by_cases hn : ch = '\n'
      · simp only [if_pos hn] at h; cases h; exact nextChar_line s
      · simp [hn] at h
  · intro s go h
    unfold skipLineBody at h
    cases hcc : s.current_char with
    | none => rw [hcc] at h; simp at h
    | some ch =>
      rw [hcc] at h
      by_cases hn : ch = '\n'
      · simp [hn] at h
      · simp only [if_neg hn] at h; cases h; exact nextChar_line s

theorem skipLine_table (st : Lexer) :
    (skipLine st).symbol_table = st.symbol_table := by
  unfold skipLine loopRun
  refine runLoop_preserve Lexer.symbol_table skipLineBody ?_ ?_ _ st
  · intro s stop h
    unfold skipLineBody at h
    cases hcc : s.current_char with
    | none => rw [hcc] at h; cases h; rfl
    | some ch =>
      rw [hcc] at h
      by_cases hn : ch = '\n'
      · simp only [if_pos hn] at h; cases h; exact nextChar_table s
      · simp [hn] at h
  · intro s go h
    unfold skipLineBody at h
    cases hcc : s.current_char with
    | none => rw [hcc] at h; simp at h
    | some ch =>
      rw [hcc] at h
      by_cases hn : ch = '\n'
      · simp [hn] at h
      · simp only [if_neg hn] at h; cases h; exact nextChar_table s

theorem skipMultilineComment_line (st : Lexer) :
    (skipMultilineComment st).line_number = st.line_number := by
  unfold skipMultilineComment loopRun
  have hpres1 : ∀ s stop, skipMultilineBody s = Sum.inl stop →
      stop.line_number = s.line_number := by
    intro s r h
    unfold skipMultilineBody at h
    cases hnc : nextChar s with
    | mk s' oc =>
      rw [hnc] at h
      have hl : s'.line_number = s.line_number := by
        have := nextChar_line s; rwa [hnc] at this
      cases oc with
      | none =>
        cases h
        exact hl
      | some ch =>
        by_cases hs : ch = '*'
        · by_cases hq : seekOffset s' 1 = some '/'
          · simp only [if_pos hs, if_pos hq] at h
            cases h
            exact ((nextChar_line _).trans (nextChar_line _)).trans hl
          · simp [hs, hq] at h
        · simp [hs] at h
  have hpres2 : ∀ s go, skipMultilineBody s = Sum.inr go →
      go.line_number = s.line_number := by
    intro s r h
    unfold skipMultilineBody at h
    cases hnc : nextChar s with
    | mk s' oc =>
      rw [hnc] at h
      have hl : s'.line_number = s.line_number := by
        have := nextChar_line s; rwa [hnc] at this
      cases oc with
      | none => simp at h
      | some ch =>
        by_cases hs : ch = '*'
        · by_cases hq : seekOffset s' 1 = some '/'
          · simp [hs, hq] at h
          · simp only [if_pos hs, if_neg hq] at h; cases h; exact hl
        · simp only [if_neg hs] at h; cases h; exact hl
  have := runLoop_preserve Lexer.line_number skipMultilineBody
    hpres1 hpres2 (lexMeasure (nextChar st).1 + 1) (nextChar st).1
  rw [this]
  exact nextChar_line st

theorem skipMultilineComment_table (st : Lexer) :
    (skipMultilineComment st).symbol_table = st.symbol_table := by
  unfold skipMultilineComment loopRun
  have hpres1 : ∀ s stop, skipMultilineBody s = Sum.inl stop →
      stop.symbol_table = s.symbol_table := by
    intro s r h
    unfold skipMultilineBody at h
    cases hnc : nextChar s with
    | mk s' oc =>
      rw [hnc] at h
      have hl : s'.symbol_table = s.symbol_table := by
        have := nextChar_table s; rwa [hnc] at this
      cases oc with
      | none => cases h; exact hl
      | some ch =>
        by_cases hs : ch = '*'
        · by_cases hq : seekOffset s' 1 = some '/'
          · simp only [if_pos hs, if_pos hq] at h
            cases h
            exact ((nextChar_table _).trans (nextChar_table _)).trans hl
          · simp [hs, hq] at h
        · simp [hs] at h
  have hpres2 : ∀ s go, skipMultilineBody s = Sum.inr go →
      go.symbol_table = s.symbol_table := by
    intro s r h
    unfold skipMultilineBody at h
    cases hnc : nextChar s with
    | mk s' oc =>
      rw [hnc] at h
      have hl : s'.symbol_table = s.symbol_table := by
        have := nextChar_table s; rwa [hnc] at this
      cases oc with
      | none => simp at h
      | some ch =>
        by_cases hs : ch = '*'
        · by_cases hq : seekOffset s' 1 = some '/'
          · simp [hs, hq] at h
          · simp only [if_pos hs, if_neg hq] at h; cases h; exact hl
        · simp only [if_neg hs] at h; cases h; exact hl
  have := runLoop_preserve Lexer.symbol_table skipMultilineBody
    hpres1 hpres2 (lexMeasure (nextChar st).1 + 1) (nextChar st).1
  rw [this]
  exact nextChar_table st

theorem stringLoop_line (st : Lexer) :
    (stringLoop st).line_number = st.line_number := by
  unfold stringLoop loopRun
  refine runLoop_preserve Lexer.line_number stringBody ?_ ?_ _ st
  · intro s stop h
    unfold stringBody at h
    cases hcc : s.current_char with
    | none => rw [hcc] at h; cases h; rfl
    | some ch =>
      rw [hcc] at h
      by_cases hq : ch = '"'
      · simp only [if_pos hq] at h; cases h; exact nextChar_line s
      · by_cases he : ch = '\\' <;> simp [hq, he] at h
  · intro s go h
    unfold stringBody at h
    cases hcc : s.current_char with
    | none => rw [hcc] at h; simp at h
    | some ch =>
      rw [hcc] at h
      by_cases hq : ch = '"'
      · simp [hq] at h
      · by_cases he : ch = '\\'
        · simp only [if_neg hq, if_pos he] at h
          cases h
          exact (nextChar_line _).trans (nextChar_line s)
        · simp only [if_neg hq, if_neg he] at h; cases h; exact nextChar_line s

theorem stringLoop_table (st : Lexer) :
    (stringLoop st).symbol_table = st.symbol_table := by
  unfold stringLoop loopRun
  refine runLoop_preserve Lexer.symbol_table stringBody ?_ ?_ _ st
  · intro s stop h
    unfold stringBody at h
    cases hcc : s.current_char with
    | none => rw [hcc] at h; cases h; rfl
    | some ch =>
      rw [hcc] at h
      by_cases hq : ch = '"'
      · simp only [if_pos hq] at h; cases h; exact nextChar_table s
      · by_cases he : ch = '\\' <;> simp [hq, he] at h
  · intro s go h
    unfold stringBody at h
    cases hcc : s.current_char with
    | none => rw [hcc] at h; simp at h
    | some ch =>
      rw [hcc] at h
      by_cases hq : ch = '"'
      · simp [hq] at h
      · by_cases he : ch = '\\'
        · simp only [if_neg hq, if_pos he] at h
          cases h
          exact (nextChar_table _).trans (nextChar_table s)
        · simp only [if_neg hq, if_neg he] at h; cases h; exact nextChar_table s

theorem identLoop_table (st : Lexer) :
    (loopRun identBody st).symbol_table = st.symbol_table := by
  unfold loopRun
  refine runLoop_preserve Lexer.symbol_table identBody ?_ ?_ _ st
  · intro s stop h
    unfold identBody at h
    cases hcc : s.current_char with
    | none => rw [hcc] at h; cases h; rfl
    | some ch =>
      rw [hcc] at h
      by_cases hd : (rustIsAlphanumeric ch || ch == '_') = true
      · simp [hd] at h
      · simp only [if_neg hd] at h; cases h; rfl
  · intro s go h
    unfold identBody at h
    cases hcc : s.current_char with
    | none => rw [hcc] at h; simp at h
    | some ch =>
      rw [hcc] at h
      by_cases hd : (rustIsAlphanumeric ch || ch == '_') = true
      · simp only [if_pos hd] at h; cases h; exact nextChar_table s
      · simp [hd] at h

theorem identLoop_line (st : Lexer) :
    (loopRun identBody st).line_number = st.line_number := by
  unfold loopRun
  refine runLoop_preserve Lexer.line_number identBody ?_ ?_ _ st
  · intro s stop h
    unfold identBody at h
    cases hcc : s.current_char with
    | none => rw [hcc] at h; cases h; rfl
    | some ch =>
      rw [hcc] at h
      by_cases hd : (rustIsAlphanumeric ch || ch == '_') = true
      · simp [hd] at h
      · simp only [if_neg hd] at h; cases h; rfl
  · intro s go h
    unfold identBody at h
    cases hcc : s.current_char with
    | none => rw [hcc] at h; simp at h
    | some ch =>
      rw [hcc] at h
      by_cases hd : (rustIsAlphanumeric ch || ch == '_') = true
      · simp only [if_pos hd] at h; cases h; exact nextChar_line s
      · simp [hd] at h

/-! ### Strict measure decrease of the skipping functions -/

theorem skipLine_measure_lt (st : Lexer) (ch : Char)
    (h : st.current_char = some ch) : lexMeasure (skipLine st) < lexMeasure st := by
  by_cases hn : ch = '\n'
  · rw [hn] at h
    rw [skipLine_newline st h]
    exact nextChar_measure_lt_of_isSome st (by rw [h]; rfl)
  · rw [skipLine_step st ch h hn]
    have h1 : lexMeasure (nextChar st).1 < lexMeasure st :=
      nextChar_measure_lt_of_isSome st (by rw [h]; rfl)
    exact lt_of_le_of_lt
      (loopRun_measure_le skipLineBody skipLineBody_le skipLineBody_dec _) h1

theorem skipWhitespace_measure_lt (st : Lexer) (ch : Char)
    (h : st.current_char = some ch) (hw : rustIsWhitespace ch = true) :
    lexMeasure (skipWhitespace st) < lexMeasure st := by
  by_cases hn : ch = '\n'
  · rw [hn] at h
    rw [skipWhitespace_newline st h]
    have h1 : lexMeasure (nextChar { st with line_number := st.line_number + 1 }).1 <
        lexMeasure st := by
      have : lexMeasure { st with line_number := st.line_number + 1 } =
          lexMeasure st := rfl
      rw [← this]
      exact nextChar_measure_lt_of_isSome _ (by
        show ({ st with line_number := st.line_number + 1 } : Lexer).current_char.isSome = true
        rw [show ({ st with line_number := st.line_number + 1 } : Lexer).current_char = st.current_char from rfl, h]
        rfl)
    exact lt_of_le_of_lt
      (loopRun_measure_le skipWhitespaceBody skipWhitespaceBody_le
        skipWhitespaceBody_dec _) h1
  · rw [skipWhitespace_other st ch h hw hn]
    have h1 : lexMeasure (nextChar st).1 < lexMeasure st :=
      nextChar_measure_lt_of_isSome st (by rw [h]; rfl)
    exact lt_of_le_of_lt
      (loopRun_measure_le skipWhitespaceBody skipWhitespaceBody_le
        skipWhitespaceBody_dec _) h1

theorem skipMultilineComment_measure_lt (st : Lexer) (ch : Char)
    (h : st.current_char = some ch) :
    lexMeasure (skipMultilineComment st) < lexMeasure st := by
  unfold skipMultilineComment
  have h1 : lexMeasure (nextChar st).1 < lexMeasure st :=
    nextChar_measure_lt_of_isSome st (by rw [h]; rfl)
  exact lt_of_le_of_lt
    (loopRun_measure_le skipMultilineBody skipMultilineBody_le
      skipMultilineBody_dec _) h1

/-! ### Fuel stability of the driver loop -/

theorem nextTokenF_stable :
    ∀ n m st, lexMeasure st < n → lexMeasure st < m →
      nextTokenF n st = nextTokenF m st := by
  intro n
  induction n with
  | zero => intro m st h _; exact absurd h (Nat.not_lt_zero _)
  | succ k ih =>
    intro m st hn hm
    cases m with
    | zero => exact absurd hm (Nat.not_lt_zero _)
    | succ j =>
      simp only [nextTokenF]
      cases hcc : st.current_char with
      | none => rfl
      | some ch =>
        by_cases hd : isAsciiDigit ch = true
        · simp only [if_pos hd]
        · simp only [if_neg hd]
          by_cases hh : ch = '#'
          · simp only [if_pos hh]
            have hlt := skipLine_measure_lt st ch hcc
            exact ih j (skipLine st) (by omega) (by omega)
          · simp only [if_neg hh]
            by_cases hs : ch = '/'
            · simp only [if_pos hs]
              by_cases hq1 : seekOffset st 1 = some '/'
              · simp only [if_pos hq1]
                have hlt := skipLine_measure_lt st ch hcc
                exact ih j (skipLine st) (by omega) (by omega)
              · simp only [if_neg hq1]
                by_cases hq2 : seekOffset st 1 = some '*'
                · simp only [if_pos hq2]
                  have hlt := skipMultilineComment_measure_lt st ch hcc
                  exact ih j (skipMultilineComment st) (by omega) (by omega)
                · simp only [if_neg hq2]
            · simp only [if_neg hs]
              by_cases hstr : ch = '"'
              · simp only [if_pos hstr]
              · simp only [if_neg hstr]
                cases hsc : singleCharToken ch with
                | some tok => rfl
                | none =>
                  by_cases hw : rustIsWhitespace ch = true
                  · simp only [if_pos hw]
                    have hlt := skipWhitespace_measure_lt st ch hcc hw
                    exact ih j (skipWhitespace st) (by omega) (by omega)
                  · simp only [if_neg hw]

/-! ### Miscellaneous helper lemmas -/

theorem lexMeasure_le_bound (st : Lexer) :
    lexMeasure st ≤ 2 * utf8Len st.input + 1 := by
  unfold lexMeasure
  split <;> omega

theorem charAt_eq_getElem (l : List Char) (h : ∀ c ∈ l, c.utf8Size = 1) :
    ∀ n, charAt l n = l.get? n := by
  induction l with
  | nil => intro n; rfl
  | cons c t ih =>
    intro n
    have hc : c.utf8Size = 1 := h c (List.mem_cons_self c t)
    cases n with
    | zero => rfl
    | succ k =>
      unfold charAt
      rw [if_neg (Nat.succ_ne_zero k), if_pos (by omega)]
      have := ih (fun x hx => h x (List.mem_cons_of_mem c hx)) (k + 1 - c.utf8Size)
      rw [this, hc]
      rfl

theorem identifierFn_state (st : Lexer) (r : Lexer × List Char)
    (h : identifierFn st = some r) : r.1 = loopRun identBody st := by
  unfold identifierFn at h
  simp only at h
  split at h
  · exact Option.noConfusion h
  · split at h
    · exact Option.noConfusion h
    · split at h
      · exact Option.noConfusion h
      · cases h
        rfl

theorem readString_state (st : Lexer) (r : Lexer × List Char)
    (h : readString st = some r) : r.1 = stringLoop (nextChar st).1 := by
  unfold readString at h
  simp only at h
  split at h
  · exact Option.noConfusion h
  · split at h
    · exact Option.noConfusion h
    · split at h
      · exact Option.noConfusion h
      · cases h
        rfl

theorem alpha_guards (ch : Char)
    (ha : (rustIsAlphabetic ch || ch == '_') = true) :
    isAsciiDigit ch = false ∧ ch ≠ '#' ∧ ch ≠ '/' ∧ ch ≠ '"' ∧
      singleCharToken ch = none ∧ rustIsWhitespace ch = false := by
  by_cases hα : rustIsAlphabetic ch = true
  · have ne : ∀ d : Char, rustIsAlphabetic d = false → ch ≠ d := by
      intro d hd he
      rw [he] at hα
      rw [hα] at hd
      exact Bool.noConfusion hd
    refine ⟨?_, ne '#' (by decide), ne '/' (by decide), ne '"' (by decide), ?_, ?_⟩
    · rw [Bool.eq_false_iff]
      intro hd
      simp only [rustIsAlphabetic, isAsciiDigit, Bool.or_eq_true, Bool.and_eq_true,
        decide_eq_true_eq, beq_iff_eq] at hα hd
      omega
    · unfold singleCharToken
      rw [if_neg (ne '<' (by decide)), if_neg (ne '>' (by decide)),
        if_neg (ne '.' (by decide)), if_neg (ne '+' (by decide)),
        if_neg (ne '-' (by decide)), if_neg (ne '=' (by decide)),
        if_neg (ne '*' (by decide)), if_neg (ne '\\' (by decide)),
        if_neg (ne '|' (by decide)), if_neg (ne ':' (by decide)),
        if_neg (ne ';' (by decide)), if_neg (ne ',' (by decide)),
        if_neg (ne '%' (by decide)), if_neg (ne '\'' (by decide)),
        if_neg (ne '&' (by decide)), if_neg (ne '!' (by decide)),
        if_neg (ne '[' (by decide)), if_neg (ne ']' (by decide)),
        if_neg (ne '{' (by decide)), if_neg (ne '}' (by decide)),
        if_neg (ne '(' (by decide)), if_neg (ne ')' (by decide)),
        if_neg (ne '^' (by decide)), if_neg (ne '?' (by decide)),
        if_neg (ne '$' (by decide))]
    · rw [Bool.eq_false_iff]
      intro hw
      simp only [rustIsAlphabetic, rustIsWhitespace, Bool.or_eq_true,
        Bool.and_eq_true, decide_eq_true_eq, beq_iff_eq] at hα hw
      omega
  · have hu : ch = '_' := by
      simp only [Bool.or_eq_true] at ha
      rcases ha with h | h
      · exact absurd h hα
      · exact eq_of_beq h
    rw [hu]
    exact ⟨by decide, by decide, by decide, by decide, rfl, by decide⟩

/-- Unfolding of `next_token` on a buffered single-character operator. -/
theorem nextToken_single (st : Lexer) (ch : Char) (tok : Token)
    (h : st.current_char = some ch)
    (hd : isAsciiDigit ch = false) (hh : ch ≠ '#') (hs : ch ≠ '/')
    (hq : ch ≠ '"') (hsc : singleCharToken ch = some tok) :
    nextToken st = some ((nextChar st).1, tok) := by
  unfold nextToken
  simp only [nextTokenF]
  rw [h]
  simp only [hd, Bool.false_eq_true, if_false, if_neg hh, if_neg hs, if_neg hq, hsc]

/-- Unfolding of `next_token` on a buffered identifier-start character. -/
theorem nextToken_ident (st : Lexer) (ch : Char)
    (h : st.current_char = some ch)
    (ha : (rustIsAlphabetic ch || ch == '_') = true) :
    nextToken st =
      match identifierFn st with
      | none => none
      | some (st2, word) =>
        match keywordFn word with
        | some k => some (st2, k)
        | none =>
          some ({ st2 with
                    symbol_table := st2.symbol_table.add word (Token.Identifier word) },
                Token.Identifier word) := by
  obtain ⟨hd, hh, hs, hq, hsc, hw⟩ := alpha_guards ch ha
  unfold nextToken
  simp only [nextTokenF]
  rw [h]
  simp only [hd, Bool.false_eq_true, if_false, if_neg hh, if_neg hs, if_neg hq, hsc,
    hw, if_pos ha]

/-! ### Claim C1 — numeric literals -/

/-- C1 counterexample: the lexer has no radix selection.  On input
`"0x1A"` the first `next_token()` call yields `Number(0)` — the `"0"` is
lexed as a base-10 number and the `"x1A"` span is left for the next call —
not `Number(26)` as the claim states. -/
theorem c1_radix_counterexample :
    (nextToken (Lexer.new ['0', 'x', '1', 'A'])).map (fun p => p.2) =
      some (Token.Number 0) ∧
    (nextToken (Lexer.new ['0', 'x', '1', 'A'])).map (fun p => p.2) ≠
      some (Token.Number 26) := by
  have he : (nextToken (Lexer.new ['0', 'x', '1', 'A'])).map (fun p => p.2) =
      some (Token.Number 0) := rfl
  refine ⟨he, ?_⟩
  rw [he]
  simp

/-- C1 amended: `Lexer::integer` lexes in base 10 only (`is_digit(10)` and
`parse::<i64>`), with no hex or octal radix selection.  A digit span
delimited by a following non-digit parses exactly (`"17;"` → `Number(17)`),
but a digit span that runs to end-of-input loses its final digit in the
`input[start_pos..position - 1]` slice: `"0x1A"` → `Number(0)`,
`"017"` → `Number(1)`, `"17"` → `Number(1)`, and on `"0"` the sliced span
is empty, so `parse::<i64>().unwrap()` panics. -/
theorem c1_radix_amended :
    (nextToken (Lexer.new ['1', '7', ';'])).map (fun p => p.2) =
      some (Token.Number 17) ∧
    (nextToken (Lexer.new ['0', 'x', '1', 'A'])).map (fun p => p.2) =
      some (Token.Number 0) ∧
    (nextToken (Lexer.new ['0', '1', '7'])).map (fun p => p.2) =
      some (Token.Number 1) ∧
    (nextToken (Lexer.new ['1', '7'])).map (fun p => p.2) =
      some (Token.Number 1) ∧
    nextToken (Lexer.new ['0']) = none := by
  refine ⟨rfl, rfl, rfl, rfl, rfl⟩

/-! ### Claim C2 — error propagation -/

/-- C2 counterexample: on the unrecognized character `'@'`, `next_token()`
does not return a typed recoverable error — it aborts the process
(`panic!("Unexpected character: ...")`), modelled by `none`. -/
theorem c2_error_counterexample : nextToken (Lexer.new ['@']) = none := rfl

/-- C2 amended: none of the four conditions is reported as a typed error
result — the `Token` type has no error variant.  An unrecognized character
panics; a digit span that fails 64-bit parsing panics (both a 20-digit
overflow and the empty sliced span of input `"0"`); an unterminated block
comment is silently skipped to end-of-input with `EOF` returned and no
report; an unterminated string literal is silently truncated into an
ordinary `String` token. -/
theorem c2_error_amended :
    nextToken (Lexer.new ['@']) = none ∧
    nextToken (Lexer.new (List.replicate 20 '9' ++ [' '])) = none ∧
    nextToken (Lexer.new ['0']) = none ∧
    nextToken (Lexer.new ['/', '*', 'a']) =
      some (⟨['/', '*', 'a'], 3, none, 1, ⟨[]⟩⟩, Token.EOF) ∧
    (nextToken (Lexer.new ['"', 'a', 'b', 'c'])).map (fun p => p.2) =
      some (Token.String ['a']) := by
  refine ⟨rfl, rfl, rfl, rfl, rfl⟩

/-! ### Claim C3 — operator matching -/

/-- C3 counterexample: there are no multi-character operators.  On input
`"=="` the stream of three `next_token()` calls is
`[Equal, Equal, EOF]` — two separate `'='` tokens — not a single
two-character token followed by end-of-input. -/
theorem c3_greedy_counterexample :
    tokensFrom 3 (Lexer.new ['=', '=']) =
      some [Token.Equal, Token.Equal, Token.EOF] ∧
    tokensFrom 3 (Lexer.new ['=', '=']) ≠
      some [Token.Equal, Token.EOF, Token.EOF] := by
  have he : tokensFrom 3 (Lexer.new ['=', '=']) =
      some [Token.Equal, Token.Equal, Token.EOF] := rfl
  refine ⟨he, ?_⟩
  rw [he]
  simp

/-- C3 amended: the `'='` arm of `next_token()` unconditionally consumes
one character and returns the single-character token `Equal`; consequently
input `"=="` lexes as `[Equal, Equal, EOF]`. -/
theorem c3_equal_amended :
    (∀ st : Lexer, st.current_char = some '=' →
      nextToken st = some ((nextChar st).1, Token.Equal)) ∧
    tokensFrom 3 (Lexer.new ['=', '=']) =
      some [Token.Equal, Token.Equal, Token.EOF] := by
  constructor
  · intro st h
    exact nextToken_single st '=' Token.Equal h (by decide) (by decide) (by decide)
      (by decide) rfl
  · rfl

/-- C3 amended, witness at a concrete state. -/
theorem c3_equal_amended_witness :
    (Lexer.new ['=', '=']).current_char = some '=' ∧
    nextToken (Lexer.new ['=', '=']) =
      some ((nextChar (Lexer.new ['=', '='])).1, Token.Equal) :=
  ⟨by decide, c3_equal_amended.1 (Lexer.new ['=', '=']) (by decide)⟩

/-! ### Claim C6 — unterminated string -/

/-- C6 counterexample: on input `"\"abc"` (no closing quote) the first
`next_token()` call does not yield an `UnterminatedString` error — no
error variant exists in `Token` — but an ordinary `String` token whose
text has been silently truncated to `"a"`. -/
theorem c6_unterminated_counterexample :
    (nextToken (Lexer.new ['"', 'a', 'b', 'c'])).map (fun p => p.2) =
      some (Token.String ['a']) := rfl

/-- C6 amended: on input `"\"abc"` the first call yields the ordinary
token `String("a")` (silent truncation, no error report), the next call
yields `EOF`, and so does every call after it — scanning terminates and
never loops. -/
theorem c6_unterminated_amended :
    tokensFrom 3 (Lexer.new ['"', 'a', 'b', 'c']) =
      some [Token.String ['a'], Token.EOF, Token.EOF] := rfl

/-! ### Claim C8 — idempotent terminal state -/

/-- C8: once the remainder is empty (no buffered character), every
`next_token()` call returns `EOF` with a completely unchanged state —
cursor, line counter and symbol table included — and hence every following
call does the same. -/
theorem c8_eof_idempotent :
    ∀ st : Lexer, st.current_char = none →
      nextToken st = some (st, Token.EOF) ∧
      ∀ n : Nat, tokensFrom n st = some (List.replicate n Token.EOF) := by
  intro st h
  have h1 : nextToken st = some (st, Token.EOF) := by
    unfold nextToken
    simp only [nextTokenF]
    rw [h]
  refine ⟨h1, ?_⟩
  intro n
  induction n with
  | zero => rfl
  | succ k ih =>
    simp only [tokensFrom, h1, ih, List.replicate_succ]
    rfl

/-- C8 witness at the empty input. -/
theorem c8_eof_idempotent_witness :
    (Lexer.new []).current_char = none ∧
    nextToken (Lexer.new []) = some (Lexer.new [], Token.EOF) ∧
    tokensFrom 2 (Lexer.new []) = some (List.replicate 2 Token.EOF) :=
  ⟨by decide, (c8_eof_idempotent (Lexer.new []) (by decide)).1,
    (c8_eof_idempotent (Lexer.new []) (by decide)).2 2⟩

/-! ### Claim C9 — termination bounded by input length -/

/-- C9: every loop of the lexer terminates within work bounded by the
input length.  `lexMeasure` is at most `2 * utf8Len input + 1`, and for
any fuel above the measure, the fueled driver loop and every fueled
classifier loop have already stabilized to their canonical values — no
extra fuel is ever consumed, i.e. no loop can run forever. -/
theorem c9_scanning_terminates :
    (∀ st : Lexer, lexMeasure st ≤ 2 * utf8Len st.input + 1) ∧
    (∀ n st, lexMeasure st < n → nextTokenF n st = nextToken st) ∧
    (∀ n st, lexMeasure st < n → runLoop skipLineBody n st = skipLine st) ∧
    (∀ n st, lexMeasure st < n →
      runLoop skipWhitespaceBody n st = skipWhitespace st) ∧
    (∀ n st, lexMeasure st < n →
      runLoop skipMultilineBody n st = loopRun skipMultilineBody st) ∧
    (∀ n st, lexMeasure st < n → runLoop digitBody n st = loopRun digitBody st) ∧
    (∀ n st, lexMeasure st < n → runLoop identBody n st = loopRun identBody st) ∧
    (∀ n st, lexMeasure st < n → runLoop stringBody n st = stringLoop st) := by
  refine ⟨lexMeasure_le_bound, ?_, ?_, ?_, ?_, ?_, ?_, ?_⟩
  · exact fun n st h => nextTokenF_stable n (lexMeasure st + 1) st h (Nat.lt_succ_self _)
  · exact fun n st h =>
      runLoop_stable skipLineBody skipLineBody_dec n (lexMeasure st + 1) st h
        (Nat.lt_succ_self _)
  · exact fun n st h =>
      runLoop_stable skipWhitespaceBody skipWhitespaceBody_dec n
        (lexMeasure st + 1) st h (Nat.lt_succ_self _)
  · exact fun n st h =>
      runLoop_stable skipMultilineBody skipMultilineBody_dec n
        (lexMeasure st + 1) st h (Nat.lt_succ_self _)
  · exact fun n st h =>
      runLoop_stable digitBody digitBody_dec n (lexMeasure st + 1) st h
        (Nat.lt_succ_self _)
  · exact fun n st h =>
      runLoop_stable identBody identBody_dec n (lexMeasure st + 1) st h
        (Nat.lt_succ_self _)
  · exact fun n st h =>
      runLoop_stable stringBody stringBody_dec n (lexMeasure st + 1) st h
        (Nat.lt_succ_self _)

/-- C9 witness: on the one-character input `"a"`, fuel 9 (already above
the bound) gives the canonical result. -/
theorem c9_scanning_terminates_witness :
    lexMeasure (Lexer.new ['a']) < 9 ∧
    nextTokenF 9 (Lexer.new ['a']) = nextToken (Lexer.new ['a']) :=
  ⟨by decide, c9_scanning_terminates.2.1 9 (Lexer.new ['a']) (by decide)⟩

/-! ### Claim C4 — lookahead under variable-width encoding -/

/-- C4 counterexample: `seek_offset` mixes a byte offset with a character
index (`self.input.chars().nth(self.position + offset - 1)`).  After
`Lexer::new` on an input starting with the two-byte scalar U+00A0, the
buffered character is U+00A0 and the character immediately following it
(the one starting at byte `position`, i.e. `charAt input position`) is
`'/'`, yet `seek_offset(1)` returns `'*'` — one character too far. -/
theorem c4_lookahead_counterexample :
    (Lexer.new [Char.ofNat 160, '/', '*']).current_char =
      some (Char.ofNat 160) ∧
    charAt (Lexer.new [Char.ofNat 160, '/', '*']).input
      (Lexer.new [Char.ofNat 160, '/', '*']).position = some '/' ∧
    seekOffset (Lexer.new [Char.ofNat 160, '/', '*']) 1 = some '*' ∧
    (some '*' : Option Char) ≠ some '/' := by
  refine ⟨by decide, by decide, by decide, by decide⟩

/-- C4 amended: advancing is correct under variable-width encoding —
`next_char` always advances the byte offset by exactly the consumed
character's UTF-8 width, never a fixed constant.  Lookahead, however, is
only correct while every character of the buffer is single-byte: in that
case `seek_offset(1)` returns exactly the character starting at byte
`position` (the one immediately following the buffered character), and
`none` past end-of-input; with multi-byte scalars before the cursor it can
return a later character (see the counterexample). -/
theorem c4_lookahead_amended :
    (∀ st c, (nextChar st).2 = some c →
      ((nextChar st).1).position = st.position + c.utf8Size) ∧
    (∀ st : Lexer, (∀ c ∈ st.input, c.utf8Size = 1) →
      seekOffset st 1 = charAt st.input st.position) := by
  constructor
  · intro st c h
    unfold nextChar at h ⊢
    by_cases hp : st.position < utf8Len st.input
    · rw [if_pos hp] at h ⊢
      cases hc : charAt st.input st.position with
      | none => rw [hc] at h; exact absurd h (by simp)
      | some c' =>
        rw [hc] at h
        simp only at h
        cases h
        rfl
    · rw [if_neg hp] at h
      exact absurd h (by simp)
  · intro st hw
    unfold seekOffset
    rw [charAt_eq_getElem st.input hw st.position]
    congr 1

/-- C4 amended, witness at concrete inputs. -/
theorem c4_lookahead_amended_witness :
    (nextChar (Lexer.new ['a', 'b'])).2 = some 'b' ∧
    ((nextChar (Lexer.new ['a', 'b'])).1).position =
      (Lexer.new ['a', 'b']).position + Char.utf8Size 'b' ∧
    (∀ c ∈ (Lexer.new ['a', 'b']).input, c.utf8Size = 1) ∧
    seekOffset (Lexer.new ['a', 'b']) 1 =
      charAt (Lexer.new ['a', 'b']).input (Lexer.new ['a', 'b']).position :=
  ⟨by decide, c4_lookahead_amended.1 (Lexer.new ['a', 'b']) 'b' (by decide),
    by decide, c4_lookahead_amended.2 (Lexer.new ['a', 'b']) (by decide)⟩

/-! ### Claim C5 — line counting -/

/-- C5 counterexample: on input `"#x\n1 "` the preprocessor-line skipper
consumes the newline, yet after the first token (`Number(1)`) the line
counter still reads 1, not the 2 the claim requires. -/
theorem c5_line_counter_counterexample :
    (nextToken (Lexer.new ['#', 'x', '\n', '1', ' '])).map
      (fun p => (p.2, p.1.line_number)) = some (Token.Number 1, 1) ∧
    (nextToken (Lexer.new ['#', 'x', '\n', '1', ' '])).map
      (fun p => (p.2, p.1.line_number)) ≠ some (Token.Number 1, 2) := by
  have he : (nextToken (Lexer.new ['#', 'x', '\n', '1', ' '])).map
      (fun p => (p.2, p.1.line_number)) = some (Token.Number 1, 1) := rfl
  refine ⟨he, ?_⟩
  rw [he]
  simp

/-- C5 amended: the line counter starts at 1 and is incremented only by
the whitespace classifier, once per newline that classifier consumes.
`skip_line` (preprocessor lines and `//` comments), block comments and
string literals never touch it.  On `"a\nb\nc"` the counter reads 1, 2, 3
at the moments the three tokens are produced. -/
theorem c5_line_counter_amended :
    (∀ input : List Char, (Lexer.new input).line_number = 1) ∧
    (∀ st : Lexer, (skipLine st).line_number = st.line_number) ∧
    (∀ st : Lexer, (skipMultilineComment st).line_number = st.line_number) ∧
    (∀ st r, readString st = some r → r.1.line_number = st.line_number) ∧
    (∀ st : Lexer, st.current_char = some '\n' →
      skipWhitespace st =
        skipWhitespace (nextChar { st with line_number := st.line_number + 1 }).1) ∧
    (∀ st ch, st.current_char = some ch → rustIsWhitespace ch = true →
      ch ≠ '\n' → skipWhitespace st = skipWhitespace (nextChar st).1) ∧
    ((nextToken (Lexer.new ['a', '\n', 'b', '\n', 'c'])).bind (fun p1 =>
      (nextToken p1.1).bind (fun p2 =>
        (nextToken p2.1).map (fun p3 =>
          [p1.1.line_number, p2.1.line_number, p3.1.line_number])))) =
      some [1, 2, 3] := by
  refine ⟨?_, skipLine_line, skipMultilineComment_line, ?_, ?_, ?_, by decide⟩
  · intro input
    exact (nextChar_line _).trans rfl
  · intro st r h
    rw [readString_state st r h, stringLoop_line, nextChar_line]
  · exact skipWhitespace_newline
  · exact skipWhitespace_other

/-- C5 amended, witness at a concrete state. -/
theorem c5_line_counter_amended_witness :
    (Lexer.new ['\n', 'a']).current_char = some '\n' ∧
    skipWhitespace (Lexer.new ['\n', 'a']) =
      skipWhitespace (nextChar { Lexer.new ['\n', 'a'] with
        line_number := (Lexer.new ['\n', 'a']).line_number + 1 }).1 :=
  ⟨by decide, c5_line_counter_amended.2.2.2.2.1 (Lexer.new ['\n', 'a']) (by decide)⟩

/-! ### Claim C7 — keywords and interning -/

/-- C7: for every word produced by the identifier classifier, a keyword
match emits the keyword token and leaves the symbol table untouched (the
classifier itself never modifies the table); otherwise the `Identifier`
token is emitted and the word is interned with `entry().or_insert()`
semantics: interning is idempotent (re-adding an existing key leaves the
table identical) and the table only ever grows (every existing entry
survives every `add`). -/
theorem c7_keyword_interning :
    (∀ st ch st2 word, st.current_char = some ch →
      (rustIsAlphabetic ch || ch == '_') = true →
      identifierFn st = some (st2, word) →
      st2.symbol_table = st.symbol_table ∧
      nextToken st = some (match keywordFn word with
        | some k => (st2, k)
        | none =>
          ({ st2 with
              symbol_table := st2.symbol_table.add word (Token.Identifier word) },
            Token.Identifier word))) ∧
    (∀ tbl w t, SymbolTable.add (SymbolTable.add tbl w t) w t =
      SymbolTable.add tbl w t) ∧
    (∀ tbl w t x, x ∈ tbl.symbols → x ∈ (SymbolTable.add tbl w t).symbols) := by
  refine ⟨?_, ?_, ?_⟩
  · intro st ch st2 word hcc ha hid
    constructor
    · rw [show st2 = loopRun identBody st from identifierFn_state st (st2, word) hid]
      exact identLoop_table st
    · rw [nextToken_ident st ch hcc ha, hid]
      simp only
      cases keywordFn word <;> rfl
  · intro tbl w t
    unfold SymbolTable.add
    by_cases h : tbl.symbols.any (fun p => p.1 = w) = true
    · simp only [if_pos h]
    · rw [if_neg h]
      have hmem : ((⟨tbl.symbols ++ [(w, t)]⟩ : SymbolTable)).symbols.any
          (fun p => p.1 = w) = true := by
        simp
      rw [if_pos hmem]
  · intro tbl w t x hx
    unfold SymbolTable.add
    split
    · exact hx
    · exact List.mem_append_left _ hx

/-- C7 witness: the non-keyword word `"xy"` is lexed, emitted as an
`Identifier` token and interned. -/
theorem c7_keyword_interning_witness :
    identifierFn (Lexer.new ['x', 'y', ' ']) =
      some (⟨['x', 'y', ' '], 3, some ' ', 1, ⟨[]⟩⟩, ['x', 'y']) ∧
    nextToken (Lexer.new ['x', 'y', ' ']) =
      some (⟨['x', 'y', ' '], 3, some ' ', 1,
              ⟨[(['x', 'y'], Token.Identifier ['x', 'y'])]⟩⟩,
            Token.Identifier ['x', 'y']) := by
  constructor
  · rfl
  · have h := (c7_keyword_interning.1 (Lexer.new ['x', 'y', ' ']) 'x'
      (⟨['x', 'y', ' '], 3, some ' ', 1, ⟨[]⟩⟩) ['x', 'y'] (by decide) (by decide)
      rfl).2
    exact h.trans rfl

/-! ### Byte arithmetic lemmas for string-literal slicing -/

theorem utf8Len_cons (c : Char) (t : List Char) :
    utf8Len (c :: t) = c.utf8Size + utf8Len t := by
  simp [utf8Len]

theorem utf8Len_append (a b : List Char) :
    utf8Len (a ++ b) = utf8Len a + utf8Len b := by
  simp [utf8Len]

theorem utf8Len_width1 (l : List Char) (h : ∀ c ∈ l, c.utf8Size = 1) :
    utf8Len l = l.length := by
  induction l with
  | nil => rfl
  | cons c t ih =>
    rw [utf8Len_cons, h c (List.mem_cons_self c t),
      ih (fun x hx => h x (List.mem_cons_of_mem c hx))]
    simp [Nat.add_comm]

theorem charAt_zero (l : List Char) : charAt l 0 = l.head? := by
  cases l <;> rfl

theorem charAt_append_right (l₁ l₂ : List Char) (n : Nat) :
    charAt (l₁ ++ l₂) (utf8Len l₁ + n) = charAt l₂ n := by
  induction l₁ with
  | nil => simp [utf8Len]
  | cons c t ih =>
    have hs := Char.utf8Size_pos c
    rw [List.cons_append, utf8Len_cons]
    conv_lhs => unfold charAt
    rw [if_neg (by omega), if_pos (by omega)]
    have harith : c.utf8Size + utf8Len t + n - c.utf8Size = utf8Len t + n := by
      omega
    rw [harith, ih]

theorem byteDrop_cons_width1 (c : Char) (hc : c.utf8Size = 1) (t : List Char) :
    byteDrop (c :: t) 1 = some t := by
  unfold byteDrop
  rw [hc]
  simp [byteDrop]

theorem byteTake_width1_take (l : List Char) :
    ∀ (r : List Char) (k : Nat), (∀ c ∈ l, c.utf8Size = 1) → k ≤ l.length →
      byteTake (l ++ r) k = some (l.take k) := by
  induction l with
  | nil =>
    intro r k _ hk
    have hk0 : k = 0 := Nat.le_zero.mp hk
    rw [hk0]
    simp [byteTake]
  | cons c t ih =>
    intro r k h hk
    have hc : c.utf8Size = 1 := h c (List.mem_cons_self c t)
    cases k with
    | zero => rfl
    | succ j =>
      rw [List.cons_append]
      unfold byteTake
      rw [hc, if_pos (by omega)]
      have harith : j + 1 - 1 = j := by omega
      rw [harith, ih r j (fun x hx => h x (List.mem_cons_of_mem c hx))
        (by simpa using hk)]
      rfl

theorem ContentOk_width1 (l : List Char) (h : ContentOk l) :
    ∀ c ∈ l, c.utf8Size = 1 := by
  induction h with
  | nil => intro c hc; exact absurd hc (List.not_mem_nil c)
  | plain c t hq he hw ht ih =>
    intro x hx
    rcases List.mem_cons.mp hx with hx | hx
    · rw [hx]; exact hw
    · exact ih x hx
  | esc d t hd ht ih =>
    intro x hx
    rcases List.mem_cons.mp hx with hx | hx
    · rw [hx]; decide
    · rcases List.mem_cons.mp hx with hx | hx
      · rw [hx]; exact hd
      · exact ih x hx

/-- Advance when the unread remainder starts with a known character. -/
theorem nextChar_at (st : Lexer) (pre : List Char) (c : Char) (suf : List Char)
    (hin : st.input = pre ++ c :: suf) (hpos : st.position = utf8Len pre) :
    (nextChar st).1 =
      ⟨st.input, st.position + c.utf8Size, some c, st.line_number,
        st.symbol_table⟩ := by
  have hs := Char.utf8Size_pos c
  have hlt : st.position < utf8Len st.input := by
    rw [hin, hpos, utf8Len_append, utf8Len_cons]
    omega
  have hc : charAt st.input st.position = some c := by
    rw [hin, hpos]
    have := charAt_append_right pre (c :: suf) 0
    simpa [charAt_zero] using this
  unfold nextChar
  rw [if_pos hlt, hc]

/-- Advance at end-of-input: the buffered character is cleared. -/
theorem nextChar_atEnd (st : Lexer) (hpos : utf8Len st.input ≤ st.position) :
    (nextChar st).1 = { st with current_char := none } := by
  unfold nextChar
  rw [if_neg (by omega)]

/-- Advance when the unread remainder is nonempty and starts with a
single-byte character. -/
theorem nextChar_width1_head (st : Lexer) (pre suf : List Char)
    (hsuf : suf ≠ []) (hin : st.input = pre ++ suf)
    (hpos : st.position = utf8Len pre)
    (hw1 : ∀ c, suf.head? = some c → c.utf8Size = 1) :
    (nextChar st).1 =
      ⟨st.input, st.position + 1, suf.head?, st.line_number,
        st.symbol_table⟩ := by
  cases suf with
  | nil => exact absurd rfl hsuf
  | cons x xs =>
    rw [nextChar_at st pre x xs hin hpos, hw1 x rfl]
    rfl

/-- Two lexer states with equal fields are equal. -/
theorem Lexer_eq_of_fields (i₁ i₂ : List Char) (p₁ p₂ : Nat)
    (c₁ c₂ : Option Char) (l₁ l₂ : Nat) (t₁ t₂ : SymbolTable)
    (hi : i₁ = i₂) (hp : p₁ = p₂) (hc : c₁ = c₂) (hl : l₁ = l₂)
    (ht : t₁ = t₂) :
    (⟨i₁, p₁, c₁, l₁, t₁⟩ : Lexer) = ⟨i₂, p₂, c₂, l₂, t₂⟩ := by
  subst hi hp hc hl ht
  rfl

/-- Byte length of the consumed prefix `'"' :: done ++ l` when all its
characters are single-byte. -/
theorem utf8Len_quote_pre (done l : List Char)
    (hdone : ∀ c ∈ done, c.utf8Size = 1) (hl : ∀ c ∈ l, c.utf8Size = 1) :
    utf8Len ('"' :: done ++ l) = 1 + done.length + l.length := by
  rw [show ('"' :: done ++ l : List Char) = '"' :: (done ++ l) from rfl,
    utf8Len_cons, utf8Len_append, utf8Len_width1 done hdone,
    utf8Len_width1 l hl]
  have hq : ('"').utf8Size = 1 := rfl
  omega

/-- Run of the `read_string` loop over well-formed single-byte content
`todo`, after `done` content characters have already been consumed: the
loop consumes the rest of the content and the closing quote, then one more
character (the one after the quote) if any input remains. -/
theorem stringLoop_run (todo : List Char) (h : ContentOk todo) :
    ∀ (done rest : List Char) (ln : Nat) (tbl : SymbolTable),
      (∀ c ∈ done, c.utf8Size = 1) →
      stringLoop ⟨'"' :: (done ++ todo) ++ '"' :: rest, 2 + done.length,
          (todo ++ '"' :: rest).head?, ln, tbl⟩ =
        match rest with
        | f :: _ =>
          ⟨'"' :: (done ++ todo) ++ '"' :: rest,
            done.length + todo.length + 2 + f.utf8Size, some f, ln, tbl⟩
        | [] =>
          ⟨'"' :: (done ++ todo) ++ '"' :: rest,
            done.length + todo.length + 2, none, ln, tbl⟩ := by
  induction h with
  | nil =>
    intro done rest ln tbl hdone
    simp only [List.cons_append, List.append_assoc, List.nil_append,
      List.append_nil, List.head?_cons, List.length_nil]
    rw [stringLoop_quote _ rfl]
    cases rest with
    | cons f rest' =>
      have hstep :
          (nextChar ⟨'"' :: (done ++ '"' :: f :: rest'), 2 + done.length,
            some '"', ln, tbl⟩).1 =
          ⟨'"' :: (done ++ '"' :: f :: rest'), 2 + done.length + f.utf8Size,
            some f, ln, tbl⟩ :=
        nextChar_at _ ('"' :: done ++ ['"']) f rest' (by simp)
          (by change 2 + done.length = _
              rw [utf8Len_quote_pre done ['"'] hdone (by decide)]
              simp only [List.length_cons, List.length_nil]
              omega)
      rw [hstep]
      exact Lexer_eq_of_fields _ _ _ _ _ _ _ _ _ _ rfl (by omega) rfl rfl rfl
    | nil =>
      rw [nextChar_atEnd _ (by
        change utf8Len ('"' :: done ++ ['"']) ≤ 2 + done.length
        rw [utf8Len_quote_pre done ['"'] hdone (by decide)]
        simp only [List.length_cons, List.length_nil]
        omega)]
      exact Lexer_eq_of_fields _ _ (2 + done.length) _ _ _ _ _ _ _ rfl
        (by omega) rfl rfl rfl
  | plain c t hq he hw ht ih =>
    intro done rest ln tbl hdone
    simp only [List.cons_append, List.append_assoc, List.nil_append,
      List.append_nil, List.head?_cons, List.length_cons]
    rw [stringLoop_plain _ c rfl hq he]
    have hhd : ∀ x, (t ++ '"' :: rest).head? = some x → x.utf8Size = 1 := by
      intro x hx
      cases t with
      | nil =>
        simp at hx
        rw [← hx]
        rfl
      | cons y t' =>
        simp at hx
        rw [← hx]
        exact ContentOk_width1 _ ht y (List.mem_cons_self y t')
    have hstep :
        (nextChar ⟨'"' :: (done ++ c :: (t ++ '"' :: rest)), 2 + done.length,
          some c, ln, tbl⟩).1 =
        ⟨'"' :: (done ++ c :: (t ++ '"' :: rest)), 2 + done.length + 1,
          (t ++ '"' :: rest).head?, ln, tbl⟩ :=
      nextChar_width1_head _ ('"' :: done ++ [c]) (t ++ '"' :: rest)
        (by simp) (by simp)
        (by change 2 + done.length = _
            rw [utf8Len_quote_pre done [c] hdone
              (by intro x hx; rw [List.mem_singleton.mp hx]; exact hw)]
            simp only [List.length_cons, List.length_nil]
            omega)
        hhd
    rw [hstep]
    have hdone' : ∀ x ∈ done ++ [c], x.utf8Size = 1 := by
      intro x hx
      rcases List.mem_append.mp hx with hx | hx
      · exact hdone x hx
      · rw [List.mem_singleton.mp hx]
        exact hw
    have hsw :
        (⟨'"' :: (done ++ c :: (t ++ '"' :: rest)), 2 + done.length + 1,
          (t ++ '"' :: rest).head?, ln, tbl⟩ : Lexer) =
        ⟨'"' :: ((done ++ [c]) ++ t) ++ '"' :: rest, 2 + (done ++ [c]).length,
          (t ++ '"' :: rest).head?, ln, tbl⟩ :=
      Lexer_eq_of_fields _ _ _ _ _ _ _ _ _ _ (by simp)
        (by simp only [List.length_append, List.length_cons, List.length_nil]
            omega)
        rfl rfl rfl
    rw [hsw, ih (done ++ [c]) rest ln tbl hdone']
    cases rest with
    | nil =>
      exact Lexer_eq_of_fields _ _ _ _ _ _ _ _ _ _ (by simp)
        (by simp only [List.length_append, List.length_cons, List.length_nil]
            omega)
        rfl rfl rfl
    | cons f rest' =>
      exact Lexer_eq_of_fields _ _ _ _ _ _ _ _ _ _ (by simp)
        (by simp only [List.length_append, List.length_cons, List.length_nil]
            omega)
        rfl rfl rfl
  | esc d t hd ht ih =>
    intro done rest ln tbl hdone
    simp only [List.cons_append, List.append_assoc, List.nil_append,
      List.append_nil, List.head?_cons, List.length_cons]
    rw [stringLoop_esc _ rfl]
    have hhd : ∀ x, (t ++ '"' :: rest).head? = some x → x.utf8Size = 1 := by
      intro x hx
      cases t with
      | nil =>
        simp at hx
        rw [← hx]
        rfl
      | cons y t' =>
        simp at hx
        rw [← hx]
        exact ContentOk_width1 _ ht y (List.mem_cons_self y t')
    have hstep1 :
        (nextChar ⟨'"' :: (done ++ '\\' :: d :: (t ++ '"' :: rest)),
          2 + done.length, some '\\', ln, tbl⟩).1 =
        ⟨'"' :: (done ++ '\\' :: d :: (t ++ '"' :: rest)),
          2 + done.length + d.utf8Size, some d, ln, tbl⟩ :=
      nextChar_at _ ('"' :: done ++ ['\\']) d (t ++ '"' :: rest) (by simp)
        (by change 2 + done.length = _
            rw [utf8Len_quote_pre done ['\\'] hdone (by decide)]
            simp only [List.length_cons, List.length_nil]
            omega)
    rw [hstep1]
    have hstep2 :
        (nextChar ⟨'"' :: (done ++ '\\' :: d :: (t ++ '"' :: rest)),
          2 + done.length + d.utf8Size, some d, ln, tbl⟩).1 =
        ⟨'"' :: (done ++ '\\' :: d :: (t ++ '"' :: rest)),
          2 + done.length + d.utf8Size + 1, (t ++ '"' :: rest).head?, ln,
          tbl⟩ :=
      nextChar_width1_head _ ('"' :: done ++ ['\\', d]) (t ++ '"' :: rest)
        (by simp) (by simp)
        (by change 2 + done.length + d.utf8Size = _
            rw [utf8Len_quote_pre done ['\\', d] hdone (by
              intro x hx
              rcases List.mem_cons.mp hx with hx | hx
              · rw [hx]; rfl
              · rw [List.mem_singleton.mp hx]; exact hd)]
            simp only [List.length_cons, List.length_nil]
            omega)
        hhd
    rw [hstep2]
    have hdone' : ∀ x ∈ done ++ ['\\', d], x.utf8Size = 1 := by
      intro x hx
      rcases List.mem_append.mp hx with hx | hx
      · exact hdone x hx
      · rcases List.mem_cons.mp hx with hx | hx
        · rw [hx]; rfl
        · rw [List.mem_singleton.mp hx]; exact hd
    have hsw :
        (⟨'"' :: (done ++ '\\' :: d :: (t ++ '"' :: rest)),
          2 + done.length + d.utf8Size + 1, (t ++ '"' :: rest).head?, ln,
          tbl⟩ : Lexer) =
        ⟨'"' :: ((done ++ ['\\', d]) ++ t) ++ '"' :: rest,
          2 + (done ++ ['\\', d]).length, (t ++ '"' :: rest).head?, ln,
          tbl⟩ :=
      Lexer_eq_of_fields _ _ _ _ _ _ _ _ _ _ (by simp)
        (by simp only [List.length_append, List.length_cons, List.length_nil]
            omega)
        rfl rfl rfl
    rw [hsw, ih (done ++ ['\\', d]) rest ln tbl hdone']
    cases rest with
    | nil =>
      exact Lexer_eq_of_fields _ _ _ _ _ _ _ _ _ _ (by simp)
        (by simp only [List.length_append, List.length_cons, List.length_nil]
            omega)
        rfl rfl rfl
    | cons f rest' =>
      exact Lexer_eq_of_fields _ _ _ _ _ _ _ _ _ _ (by simp)
        (by simp only [List.length_append, List.length_cons, List.length_nil]
            omega)
        rfl rfl rfl

/-- Evaluation of `Lexer::new` on a nonempty buffer. -/
theorem Lexer_new_cons (c : Char) (t : List Char) :
    Lexer.new (c :: t) = ⟨c :: t, c.utf8Size, some c, 1, ⟨[]⟩⟩ := by
  unfold Lexer.new
  rw [nextChar_at _ [] c t rfl rfl]
  exact Lexer_eq_of_fields _ _ (0 + c.utf8Size) _ _ _ _ _ _ _ rfl (by omega)
    rfl rfl rfl

/-- `read_string` on a fresh lexer whose buffer is a complete string
literal followed by at least one single-byte character: the token text is
exactly the content between the quotes. -/
theorem readString_run1 (content : List Char) (h : ContentOk content)
    (f : Char) (rest' : List Char) (hf : f.utf8Size = 1) :
    readString ⟨'"' :: (content ++ '"' :: f :: rest'), 1, some '"', 1, ⟨[]⟩⟩ =
      some (⟨'"' :: (content ++ '"' :: f :: rest'), content.length + 3, some f,
        1, ⟨[]⟩⟩, content) := by
  have hstep0 : (nextChar ⟨'"' :: (content ++ '"' :: f :: rest'), 1, some '"',
      1, ⟨[]⟩⟩).1 =
      ⟨'"' :: (content ++ '"' :: f :: rest'), 2,
        (content ++ '"' :: f :: rest').head?, 1, ⟨[]⟩⟩ :=
    nextChar_width1_head _ ['"'] (content ++ '"' :: f :: rest') (by simp) rfl
      rfl (by
        intro x hx
        cases content with
        | nil => simp at hx; rw [← hx]; rfl
        | cons y t' =>
          simp at hx
          rw [← hx]
          exact ContentOk_width1 _ h y (List.mem_cons_self y t'))
  have hrun := stringLoop_run content h [] (f :: rest') 1 ⟨[]⟩
    (by intro x hx; exact absurd hx (List.not_mem_nil x))
  simp only [List.nil_append, List.length_nil, Nat.zero_add, Nat.add_zero,
    List.cons_append, List.append_assoc, hf] at hrun
  have husub2 : usizeSub (content.length + 2 + 1) 2 = some (content.length + 1) := by
    unfold usizeSub
    rw [if_pos (by omega)]
    exact congrArg some (by omega)
  have hslice : byteSlice ('"' :: (content ++ '"' :: f :: rest')) 1
      (content.length + 1) = some content := by
    unfold byteSlice
    rw [if_pos (by omega)]
    rw [byteDrop_cons_width1 '"' rfl _]
    have harith : content.length + 1 - 1 = content.length := by omega
    simp only [Option.bind, harith]
    rw [byteTake_width1_take content ('"' :: f :: rest') content.length
      (ContentOk_width1 content h) (le_refl _)]
    rw [List.take_length]
  unfold readString
  simp only [hstep0]
  rw [show usizeSub (2 : Nat) 1 = some 1 from rfl]
  simp only [hrun, husub2, hslice]

/-- `read_string` on a fresh lexer whose buffer is a string literal whose
closing quote is the last character of the input: the token text loses the
final content character. -/
theorem readString_run2 (content : List Char) (h : ContentOk content)
    (hne : content ≠ []) :
    readString ⟨'"' :: (content ++ ['"']), 1, some '"', 1, ⟨[]⟩⟩ =
      some (⟨'"' :: (content ++ ['"']), content.length + 2, none, 1, ⟨[]⟩⟩,
        content.dropLast) := by
  have hlen : 0 < content.length := List.length_pos.mpr hne
  have hstep0 : (nextChar ⟨'"' :: (content ++ ['"']), 1, some '"',
      1, ⟨[]⟩⟩).1 =
      ⟨'"' :: (content ++ ['"']), 2, (content ++ ['"']).head?, 1, ⟨[]⟩⟩ :=
    nextChar_width1_head _ ['"'] (content ++ ['"']) (by simp) rfl
      rfl (by
        intro x hx
        cases content with
        | nil => simp at hx; rw [← hx]; rfl
        | cons y t' =>
          simp at hx
          rw [← hx]
          exact ContentOk_width1 _ h y (List.mem_cons_self y t'))
  have hrun := stringLoop_run content h [] [] 1 ⟨[]⟩
    (by intro x hx; exact absurd hx (List.not_mem_nil x))
  simp only [List.nil_append, List.length_nil, Nat.zero_add, Nat.add_zero,
    List.cons_append, List.append_assoc] at hrun
  have husub2 : usizeSub (content.length + 2) 2 = some content.length := by
    unfold usizeSub
    rw [if_pos (by omega)]
    exact congrArg some (by omega)
  have hslice : byteSlice ('"' :: (content ++ ['"'])) 1 content.length =
      some content.dropLast := by
    unfold byteSlice
    rw [if_pos (by omega)]
    rw [byteDrop_cons_width1 '"' rfl _]
    simp only [Option.bind]
    rw [byteTake_width1_take content ['"'] (content.length - 1)
      (ContentOk_width1 content h) (by omega)]
    rw [List.dropLast_eq_take]
  unfold readString
  simp only [hstep0]
  rw [show usizeSub (2 : Nat) 1 = some 1 from rfl]
  simp only [hrun, husub2, hslice]

/-- Unfolding of `next_token` on a buffered quote: the `'"'` arm. -/
theorem nextToken_string (st : Lexer) (h : st.current_char = some '"') :
    nextToken st = (readString st).map (fun p => (p.1, Token.String p.2)) := by
  unfold nextToken
  simp only [nextTokenF]
  rw [h]
  simp only [show isAsciiDigit '"' = false from rfl, Bool.false_eq_true,
    if_false, if_neg (show ('"' : Char) ≠ '#' from by decide),
    if_neg (show ('"' : Char) ≠ '/' from by decide), eq_self_iff_true, if_true]

/-! ### Claim C10 — string token content -/

/-- C10 counterexample: when the character following the closing quote is
the two-byte scalar U+00A0, the slice `input[start_pos..position - 2]`
reaches one byte past the closing quote, so the token text is `"a\""` —
the content plus the closing quote — not the claimed exact content
`"a"`. -/
theorem c10_string_content_counterexample :
    (nextToken (Lexer.new ['"', 'a', '"', Char.ofNat 160])).map
      (fun p => p.2) = some (Token.String ['a', '"']) ∧
    (nextToken (Lexer.new ['"', 'a', '"', Char.ofNat 160])).map
      (fun p => p.2) ≠ some (Token.String ['a']) := by
  have he : (nextToken (Lexer.new ['"', 'a', '"', Char.ofNat 160])).map
      (fun p => p.2) = some (Token.String ['a', '"']) := rfl
  refine ⟨he, ?_⟩
  rw [he]
  simp

/-- C10 amended: for an input that begins with a string literal with
well-formed single-byte content (plain characters and backslash escape
pairs, `ContentOk`): if at least one character follows the closing quote
and that character is single-byte, the emitted `String` token's text is
exactly the characters between the two quotes (escapes preserved
verbatim); if the closing quote is the final character of the input and
the content is nonempty, the text omits the last character of the
content. -/
theorem c10_string_content_amended :
    ∀ content : List Char, ContentOk content →
      (∀ (f : Char) (rest' : List Char), f.utf8Size = 1 →
        nextToken (Lexer.new ('"' :: (content ++ '"' :: f :: rest'))) =
          some (⟨'"' :: (content ++ '"' :: f :: rest'), content.length + 3,
            some f, 1, ⟨[]⟩⟩, Token.String content)) ∧
      (content ≠ [] →
        nextToken (Lexer.new ('"' :: (content ++ ['"']))) =
          some (⟨'"' :: (content ++ ['"']), content.length + 2, none, 1, ⟨[]⟩⟩,
            Token.String content.dropLast)) := by
  intro content h
  constructor
  · intro f rest' hf
    have hnew : Lexer.new ('"' :: (content ++ '"' :: f :: rest')) =
        ⟨'"' :: (content ++ '"' :: f :: rest'), 1, some '"', 1, ⟨[]⟩⟩ := by
      rw [Lexer_new_cons]
      exact Lexer_eq_of_fields _ _ _ _ _ _ _ _ _ _ rfl rfl rfl rfl rfl
    rw [hnew, nextToken_string _ rfl, readString_run1 content h f rest' hf]
    rfl
  · intro hne
    have hnew : Lexer.new ('"' :: (content ++ ['"'])) =
        ⟨'"' :: (content ++ ['"']), 1, some '"', 1, ⟨[]⟩⟩ := by
      rw [Lexer_new_cons]
      exact Lexer_eq_of_fields _ _ _ _ _ _ _ _ _ _ rfl rfl rfl rfl rfl
    rw [hnew, nextToken_string _ rfl, readString_run2 content h hne]
    rfl

/-- C10 amended, witness: the literal `"a"` followed by `'b'`. -/
theorem c10_string_content_amended_witness :
    ContentOk ['a'] ∧ Char.utf8Size 'b' = 1 ∧
    nextToken (Lexer.new ['"', 'a', '"', 'b']) =
      some (⟨['"', 'a', '"', 'b'], 4, some 'b', 1, ⟨[]⟩⟩,
        Token.String ['a']) := by
  have hok : ContentOk ['a'] :=
    ContentOk.plain 'a' [] (by decide) (by decide) rfl ContentOk.nil
  refine ⟨hok, rfl, ?_⟩
  have h1 := (c10_string_content_amended ['a'] hok).1 'b' [] rfl
  exact h1.trans rfl
